import Mathlib

set_option maxRecDepth 16000

/- Verification of the Pluck media extraction and download core.

   Shallow embedding of:
   - src/unnamed/part_000 (lib/parser.ts): `parseSrcset` and `extractMedia`,
     a single-pass combined-regex scan over the HTML text.  The combined
     regex's four alternatives (tag src attributes, srcset, anchor hrefs,
     inline background-image styles) are embedded as specialized matchers
     with JavaScript regex semantics (leftmost match, alternation order,
     lazy/greedy backtracking, case-insensitive flags), and the per-match
     processing loop is embedded as `processStep`/`processMatches`.
   - src/App.tsx: `resolveUrl`, `getDirectMediaCategory`, the media-routing
     part of `handlePluck`, and the `handleDownload` orchestrator.  Platform
     primitives (WHATWG URL parsing/joining, expo-file-system transfer,
     expo-media-library) are modeled as parameters/environment fields; the
     orchestrator is embedded as a function from that environment to the
     sequence of tracker/lock states it produces and its terminal outcome.

   Strings are modeled as `List Char`. -/

abbrev Str := List Char

namespace Parser

/-- ASCII part of the JS regex class `\s`, also used by `String.prototype.trim`. -/
def isWsRe (c : Char) : Bool :=
  c == ' ' || c == '\t' || c == '\n' || c == '\r' || c == '\x0b' || c == '\x0c'

def isQuote (c : Char) : Bool := c == '"' || c == '\''

/-- Case-insensitive literal match (the regex `i` flag); on success returns the
rest of the input after the literal. -/
def litCI : Str → Str → Option Str
  | [], s => some s
  | _ :: _, [] => none
  | p :: ps, c :: cs => if p.toLower == c.toLower then litCI ps cs else none

/-- JS `String.prototype.trim`. -/
def jsTrim (s : Str) : Str := ((s.dropWhile isWsRe).reverse.dropWhile isWsRe).reverse

/-- JS `String.prototype.split` with a single-character separator:
keeps empty pieces, `"".split(c) = [""]`. -/
def splitOnChar (sep : Char) : Str → List Str
  | [] => [[]]
  | c :: cs =>
    match splitOnChar sep cs with
    | h :: t => if c == sep then [] :: h :: t else (c :: h) :: t
    | [] => if c == sep then [[], []] else [[c]]

/-- Split a string at its last `'.'`: `some (before, after)`, or `none` if it
has no dot. -/
def splitLastDot (s : Str) : Option (Str × Str) :=
  match s.reverse.span (fun c => !(c == '.')) with
  | (revAfter, '.' :: revBefore) => some (revBefore.reverse, revAfter.reverse)
  | (_, _) => none

def toLowerStr (s : Str) : Str := s.map Char.toLower

-- Literal fragments of the combined regex in extractMedia.
def tagNames : List Str := (["img", "video", "audio", "source"]).map String.toList
def attrNames : List Str := (["src", "data-src", "poster", "data-lazy-src"]).map String.toList
def srcsetAttrNames : List Str := (["srcset", "data-srcset"]).map String.toList
def hrefL : Str := "href".toList
def anchorTagL : Str := "a".toList
def bgImageL : Str := "background-image:".toList
def urlOpenL : Str := "url(".toList

/-- The extension alternation of the anchor pattern
(`IMAGE_EXTENSIONS ++ AUDIO_EXTENSIONS ++ VIDEO_EXTENSIONS` of parser.ts, with
the regex fragment `jpe?g` expanded to its two matches `jpg`, `jpeg`). -/
def anchorExts : List Str :=
  (["jpg", "jpeg", "png", "gif", "webp", "svg", "bmp",
    "mp3", "wav", "ogg", "aac", "m4a",
    "mp4", "mov", "avi", "webm", "mkv", "flv"]).map String.toList

/-- The image-extension alternation of the background-image pattern
(`IMAGE_EXTENSIONS` of parser.ts, `jpe?g` expanded). -/
def styleImgExts : List Str :=
  (["jpg", "jpeg", "png", "gif", "webp", "svg", "bmp"]).map String.toList

def extIn (exts : List Str) (e : Str) : Bool := exts.any (fun x => x == e)

/-- Does a captured value end in `"." ++ ext` for one of the given extensions
(case-insensitively), with a nonempty part before the dot?  This is the
backtracking semantics of `[^"']+\.(ext1|ext2|...)` followed by a closing
delimiter: the extension must be the segment after the last dot. -/
def capExtOk (exts : List Str) (cap : Str) : Bool :=
  match splitLastDot cap with
  | some (bef, e) => !bef.isEmpty && extIn exts (toLowerStr e)
  | none => false

/-- The shared attribute-value tail `\s*=\s*["']([^"']+)["']`:
returns (capture, rest after the closing quote). -/
def eqQuoteCap (s : Str) : Option (Str × Str) :=
  match s.dropWhile isWsRe with
  | '=' :: s2 =>
    (match s2.dropWhile isWsRe with
     | q :: s4 =>
       if isQuote q then
         match s4.span (fun c => !(isQuote c)) with
         | (cap, q2 :: s5) =>
           if cap.isEmpty then none
           else if isQuote q2 then some (cap, s5) else none
         | (_, []) => none
       else none
     | [] => none)
  | _ => none

/-- Try an alternation of attribute-name literals, each followed by the
`eqQuoteCap` tail (JS tries the next alternative when the tail fails). -/
def attrValAlt : List Str → Str → Option (Str × Str)
  | [], _ => none
  | a :: more, s =>
    match litCI a s with
    | some r =>
      (match eqQuoteCap r with
       | some res => some res
       | none => attrValAlt more s)
    | none => attrValAlt more s

/-- The lazy `[^>]+?` of the tag pattern: consume at least one non-`>`
character, then try the attribute alternation, extending on failure. -/
def p1Lazy : Str → Option (Str × Str)
  | [] => none
  | c :: cs =>
    if c == '>' then none
    else
      match attrValAlt attrNames cs with
      | some r => some r
      | none => p1Lazy cs

/-- The tag-name alternation `(?:img|video|audio|source)` (non-capturing in the
source regex; the matched name is returned here only as scan metadata). -/
def p1Tags : List Str → Str → Option (Str × Str × Str)
  | [], _ => none
  | t :: ts, s1 =>
    match litCI t s1 with
    | some s2 =>
      (match p1Lazy s2 with
       | some (url, rest) => some (t, url, rest)
       | none => p1Tags ts s1)
    | none => p1Tags ts s1

/-- Pattern 1 of the combined regex:
`<(?:img|video|audio|source)[^>]+?(?:src|data-src|poster|data-lazy-src)\s*=\s*["']([^"']+)["']`.
Returns (tag, captured url, rest). -/
def matchP1 : Str → Option (Str × Str × Str)
  | '<' :: s1 => p1Tags tagNames s1
  | _ => none

/-- Pattern 2: `(?:srcset|data-srcset)\s*=\s*["']([^"']+)["']`. -/
def matchP2 (s : Str) : Option (Str × Str) := attrValAlt srcsetAttrNames s

/-- The value tail of the anchor pattern: `eqQuoteCap` whose capture must end
in a recognized media extension (`[^"']+\.(ext)` before the closing quote). -/
def p3Tail (s : Str) : Option (Str × Str) :=
  match litCI hrefL s with
  | some r =>
    (match eqQuoteCap r with
     | some (cap, rest) => if capExtOk anchorExts cap then some (cap, rest) else none
     | none => none)
  | none => none

/-- The lazy `[^>]+?` of the anchor pattern. -/
def p3Lazy : Str → Option (Str × Str)
  | [] => none
  | c :: cs =>
    if c == '>' then none
    else
      match p3Tail cs with
      | some r => some r
      | none => p3Lazy cs

/-- Pattern 3: `<a[^>]+?href\s*=\s*["']([^"']+\.(ext...))["']`. -/
def matchP3 : Str → Option (Str × Str)
  | '<' :: s1 =>
    (match litCI anchorTagL s1 with
     | some s2 => p3Lazy s2
     | none => none)
  | _ => none

/-- Pattern 4:
`background-image:\s*url\((?:"|'|)?([^)"']+\.(imgext...))(?:"|'|)?\)`. -/
def matchP4 (s : Str) : Option (Str × Str) :=
  match litCI bgImageL s with
  | none => none
  | some s1 =>
    match litCI urlOpenL (s1.dropWhile isWsRe) with
    | none => none
    | some s3 =>
      let s4 := match s3 with
                | c :: cs => if isQuote c then cs else s3
                | [] => s3
      match s4.span (fun c => !(c == ')' || isQuote c)) with
      | (cap, rest) =>
        if cap.isEmpty then none
        else if !(capExtOk styleImgExts cap) then none
        else
          match rest with
          | ')' :: s5 => some (cap, s5)
          | q :: ')' :: s5 => if isQuote q then some (cap, s5) else none
          | _ => none

/-- One scan match: which capture group of the combined regex fired.
`tagSrc` additionally records which tag-name alternative matched — the source
regex does NOT capture it (the group is non-capturing), and the processing
loop never sees it. -/
inductive ScanMatch where
  | tagSrc (tag : Str) (url : Str)
  | srcset (value : Str)
  | anchor (url : Str)
  | styleBg (url : Str)
deriving DecidableEq

/-- Try the four alternatives of the combined regex, in source order, at the
current position. -/
def matchHere (s : Str) : Option (ScanMatch × Str) :=
  match matchP1 s with
  | some (t, url, rest) => some (.tagSrc t url, rest)
  | none =>
    match matchP2 s with
    | some (v, rest) => some (.srcset v, rest)
    | none =>
      match matchP3 s with
      | some (u, rest) => some (.anchor u, rest)
      | none =>
        match matchP4 s with
        | some (u, rest) => some (.styleBg u, rest)
        | none => none

/-- The global `exec` loop: find the leftmost match, record it, continue after
its end.  Every match consumes at least one character, so `fuel = length`
always suffices. -/
def scanAux : Nat → Str → List ScanMatch
  | 0, _ => []
  | _ + 1, [] => []
  | fuel + 1, c :: cs =>
    match matchHere (c :: cs) with
    | some (m, rest) => m :: scanAux fuel rest
    | none => scanAux fuel cs

def scanMatches (s : Str) : List ScanMatch := scanAux s.length s

/-- `part.trim().split(/\s+/)[0]`: leading whitespace-delimited token of a
trimmed srcset candidate. -/
def firstTokenOf (part : Str) : Str := (jsTrim part).takeWhile (fun c => !(isWsRe c))

/-- `Set.add` followed by `Array.from`: append if absent, keep insertion
order. -/
def insertUnique (l : List Str) (x : Str) : List Str := if x ∈ l then l else l ++ [x]

/-- The forEach body of parseSrcset over the comma-split candidates. -/
def parseSrcsetAux : List Str → List Str → List Str
  | acc, [] => acc
  | acc, part :: parts =>
    parseSrcsetAux
      (if (firstTokenOf part).isEmpty then acc else insertUnique acc (firstTokenOf part))
      parts

/-- parser.ts `parseSrcset`. -/
def parseSrcset (v : Str) : List Str := parseSrcsetAux [] (splitOnChar ',' v)

inductive MCat where
  | img
  | aud
  | vid
deriving DecidableEq

def jpeKey : Str := "jpe?g".toList

/-- `extensionToSetMap` of extractMedia, in object-key insertion order. -/
def extKeyList : List (Str × MCat) :=
  ((["jpe?g", "png", "gif", "webp", "svg", "bmp"]).map (fun k => (k.toList, MCat.img))) ++
  ((["mp3", "wav", "ogg", "aac", "m4a"]).map (fun k => (k.toList, MCat.aud))) ++
  ((["mp4", "mov", "avi", "webm", "mkv", "flv"]).map (fun k => (k.toList, MCat.vid)))

/-- `new RegExp('^' ++ key ++ '$').test(ext)`: the keys are literals except
`jpe?g`, which matches `jpg` and `jpeg`. -/
def keyTest (key : Str) (ext : Str) : Bool :=
  if key == jpeKey then ext == "jpg".toList || ext == "jpeg".toList else ext == key

/-- The `for (const key in extensionToSetMap)` loop with `break`: first key
whose pattern matches the (already lowercased) extension. -/
def classifyExt (ext : Str) : Option MCat :=
  (extKeyList.find? (fun kc => keyTest kc.1 ext)).map (fun kc => kc.2)

def isExtChar (c : Char) : Bool := c.isAlpha || c.isDigit

/-- `url.match(/\.([a-z0-9]+)$/i)`: the segment after the last dot, when it is
nonempty and entirely alphanumeric. -/
def urlExt (url : Str) : Option Str :=
  match splitLastDot url with
  | some (_, e) => if !e.isEmpty && e.all isExtChar then some e else none
  | none => none

/-- parser.ts `Media`: the three result collections. -/
structure Media where
  images : List Str
  audios : List Str
  videos : List Str
deriving DecidableEq

/-- Extension-based classification of one url from the loop body:
`const ext = extensionMatch[1].toLowerCase(); ... extensionToSetMap[key].add(url)`. -/
def addByExt (st : Media) (url : Str) : Media :=
  match urlExt url with
  | none => st
  | some e =>
    match classifyExt (toLowerStr e) with
    | some .img => { st with images := insertUnique st.images url }
    | some .aud => { st with audios := insertUnique st.audios url }
    | some .vid => { st with videos := insertUnique st.videos url }
    | none => st

/-- The body of the `while ((match = combinedRegex.exec(html)) !== null)` loop.
A srcset capture is decomposed and added to the image set unconditionally;
any other capture goes through extension classification.  The tag name of a
`tagSrc` match is not read (it is not captured by the source regex). -/
def processStep (st : Media) (m : ScanMatch) : Media :=
  match m with
  | .srcset v => { st with images := (parseSrcset v).foldl insertUnique st.images }
  | .tagSrc _ url => if url.isEmpty then st else addByExt st url
  | .anchor url => if url.isEmpty then st else addByExt st url
  | .styleBg url => if url.isEmpty then st else addByExt st url

def processMatches (st : Media) (ms : List ScanMatch) : Media := ms.foldl processStep st

/-- parser.ts `extractMedia`. -/
def extractMedia (html : Str) : Media := processMatches ⟨[], [], []⟩ (scanMatches html)

end Parser

namespace App

/-- App.tsx extension lists (with leading dots, checked by `endsWith`). -/
def IMAGE_EXTENSIONS : List Str :=
  ([".jpg", ".jpeg", ".png", ".gif", ".bmp", ".webp", ".svg"]).map String.toList

def AUDIO_EXTENSIONS : List Str :=
  ([".mp3", ".wav", ".ogg", ".aac", ".m4a"]).map String.toList

def VIDEO_EXTENSIONS : List Str :=
  ([".mp4", ".mov", ".avi", ".webm", ".mkv", ".flv"]).map String.toList

def startsWithL : Str → Str → Bool
  | [], _ => true
  | _ :: _, [] => false
  | p :: ps, c :: cs => p == c && startsWithL ps cs

/-- JS `String.prototype.endsWith`. -/
def endsWithL (suffL s : Str) : Bool := startsWithL suffL.reverse s.reverse

inductive MediaCat where
  | image
  | audio
  | video
deriving DecidableEq

/-- App.tsx `getDirectMediaCategory`.  `new URL(url).pathname` is a platform
primitive, modeled by the parameter `pathnameOf` (`none` = the constructor
throws, caught and turned into `null`). -/
def getDirectMediaCategory (pathnameOf : Str → Option Str) (url : Str) : Option MediaCat :=
  match pathnameOf url with
  | none => none
  | some p =>
    if IMAGE_EXTENSIONS.any (fun e => endsWithL e (Parser.toLowerStr p)) then some .image
    else if AUDIO_EXTENSIONS.any (fun e => endsWithL e (Parser.toLowerStr p)) then some .audio
    else if VIDEO_EXTENSIONS.any (fun e => endsWithL e (Parser.toLowerStr p)) then some .video
    else none

/-- App.tsx `Media` (the four tab collections). -/
structure Media where
  images : List Str
  audios : List Str
  videos : List Str
  others : List Str
deriving DecidableEq

/-- How `handlePluck` routes a submitted link: empty input is rejected, a
direct media link is placed without any fetch, anything else goes to the
fetch-and-extract branch. -/
inductive PluckResult where
  | emptyInput
  | direct (m : Media)
  | scrape
deriving DecidableEq

/-- The routing and direct-placement part of App.tsx `handlePluck` (the
`!link.trim()` guard and the `directMediaCategory` branch; the fetch branch is
the external collaborator and is represented by `.scrape`). -/
def handlePluck (pathnameOf : Str → Option Str) (link : Str) : PluckResult :=
  if (Parser.jsTrim link).isEmpty then .emptyInput
  else
    match getDirectMediaCategory pathnameOf link with
    | some .image => .direct ⟨[link], [], [], []⟩
    | some .audio => .direct ⟨[], [link], [], []⟩
    | some .video => .direct ⟨[], [], [link], []⟩
    | none => .scrape

def httpL : Str := "http://".toList
def httpsL : Str := "https://".toList
def protoRelL : Str := "//".toList
def httpsColonL : Str := "https:".toList

/-- App.tsx `resolveUrl`.  `new URL(relativeUrl, baseUrl).href` is a platform
primitive, modeled by the parameter `join` (`none` = the constructor throws,
caught and turned into `''`). -/
def resolveUrl (join : Str → Str → Option Str) (baseUrl relativeUrl : Str) : Str :=
  if relativeUrl.isEmpty then []
  else if startsWithL httpL relativeUrl || startsWithL httpsL relativeUrl then relativeUrl
  else if startsWithL protoRelL relativeUrl then httpsColonL ++ relativeUrl
  else
    match join relativeUrl baseUrl with
    | some href => href
    | none => []

/-- The per-category pipeline of handlePluck's scrape branch:
`extracted.xs.map(url => resolveUrl(baseUrl, url)).filter(Boolean)`. -/
def resolveAll (join : Str → Str → Option Str) (baseUrl : Str) (urls : List Str) : List Str :=
  (urls.map (resolveUrl join baseUrl)).filter (fun u => !u.isEmpty)

-- ### Download orchestrator (App.tsx handleDownload)

/-- Result of `MediaLibrary.getPermissionsAsync()` as read by the code:
granted, or denied with/without `canAskAgain`. -/
inductive Perm0 where
  | granted
  | deniedCanAsk
  | deniedBlocked
deriving DecidableEq

/-- Behavior of `downloadResumable.downloadAsync()`: resolves with a result,
resolves with no result object, or rejects. -/
inductive TransferRes where
  | ok
  | noResult
  | throwErr
deriving DecidableEq

/-- Terminal signal of one `handleDownload` invocation (the distinct alert /
return paths of the code). -/
inductive DlOutcome where
  | busy
  | permDenied
  | permBlocked
  | failed
  | succeeded
deriving DecidableEq

/-- Environment: the outcomes of every platform call awaited by
handleDownload.  `leavesPartial` records whether a failed transfer leaves
bytes at the target path (platform-determined; the code itself never deletes
the file). -/
structure DlEnv where
  perm0 : Perm0
  reAskGranted : Bool
  urlOk : Bool
  progressEvents : List (Int × Int)
  transfer : TransferRes
  leavesPartial : Bool
  assetOk : Bool
  albumOk : Bool
deriving DecidableEq

/-- The shared mutable state read by the UI: the `downloads` progress tracker
(JS object: key-insertion-ordered) and the `isDownloading` single-flight
lock. -/
structure DState where
  downloads : List (Str × ℚ)
  isDownloading : Bool
deriving DecidableEq

def lookupQ : List (Str × ℚ) → Str → Option ℚ
  | [], _ => none
  | e :: es, u => if e.1 = u then some e.2 else lookupQ es u

/-- `{...prev, [url]: {progress: p}}`: update in place if the key exists,
else append. -/
def setEntry (d : List (Str × ℚ)) (url : Str) (p : ℚ) : List (Str × ℚ) :=
  if (lookupQ d url).isSome then d.map (fun e => if e.1 = url then (url, p) else e)
  else d ++ [(url, p)]

/-- `const nd = {...prev}; delete nd[url]; return nd`. -/
def removeEntry (d : List (Str × ℚ)) (url : Str) : List (Str × ℚ) :=
  d.filter (fun e => !(decide (e.1 = url)))

/-- The progress callback's stored value:
`progress.totalBytesWritten / progress.totalBytesExpectedToWrite`
(unconditional division; no clamping, no indeterminate branch). -/
def progressVal (w e : Int) : ℚ := (w : ℚ) / (e : ℚ)

def applyProgress (d : List (Str × ℚ)) (url : Str) (ev : Int × Int) : List (Str × ℚ) :=
  setEntry d url (progressVal ev.1 ev.2)

/-- Tracker states produced by the progress callback firing once per event
during the transfer. -/
def progressTrace (url : Str) : DState → List (Int × Int) → List DState
  | _, [] => []
  | s, ev :: evs =>
    (⟨applyProgress s.downloads url ev, s.isDownloading⟩ : DState) ::
      progressTrace url ⟨applyProgress s.downloads url ev, s.isDownloading⟩ evs

/-- The `finally` block, which runs on every exit from the `try` (returns
included): clear the tracker entry for this url, then release the lock. -/
def finallyStates (st : DState) (url : Str) : List DState :=
  [⟨removeEntry st.downloads url, st.isDownloading⟩,
   ⟨removeEntry st.downloads url, false⟩]

/-- Result of one handleDownload invocation: the sequence of shared-state
values after each mutation, the terminal outcome, and whether a file is left
at the target path afterwards (the code performs no deletion, so on failure
this is exactly what the platform left behind). -/
structure DlResult where
  trace : List DState
  outcome : DlOutcome
  fileRetained : Bool
deriving DecidableEq

/-- The part of handleDownload after the permission gate has been passed:
`new URL(url)` (throws into the catch when invalid), tracker entry creation,
transfer with progress callbacks, asset registration, album filing (failures
caught and only warned), then the `finally` block. -/
def grantedPath (env : DlEnv) (url : Str) (s1 : DState) : DlResult :=
  if env.urlOk then
    match env.transfer with
    | .noResult =>
      ⟨[s1, ⟨setEntry s1.downloads url 0, s1.isDownloading⟩] ++
         progressTrace url ⟨setEntry s1.downloads url 0, s1.isDownloading⟩ env.progressEvents ++
         finallyStates ((progressTrace url ⟨setEntry s1.downloads url 0, s1.isDownloading⟩
            env.progressEvents).getLastD ⟨setEntry s1.downloads url 0, s1.isDownloading⟩) url,
       .failed, env.leavesPartial⟩
    | .throwErr =>
      ⟨[s1, ⟨setEntry s1.downloads url 0, s1.isDownloading⟩] ++
         progressTrace url ⟨setEntry s1.downloads url 0, s1.isDownloading⟩ env.progressEvents ++
         finallyStates ((progressTrace url ⟨setEntry s1.downloads url 0, s1.isDownloading⟩
            env.progressEvents).getLastD ⟨setEntry s1.downloads url 0, s1.isDownloading⟩) url,
       .failed, env.leavesPartial⟩
    | .ok =>
      if env.assetOk then
        -- album filing: `catch (albumError)` only warns, the job still succeeds
        if env.albumOk then
          ⟨[s1, ⟨setEntry s1.downloads url 0, s1.isDownloading⟩] ++
             progressTrace url ⟨setEntry s1.downloads url 0, s1.isDownloading⟩ env.progressEvents ++
             finallyStates ((progressTrace url ⟨setEntry s1.downloads url 0, s1.isDownloading⟩
                env.progressEvents).getLastD ⟨setEntry s1.downloads url 0, s1.isDownloading⟩) url,
           .succeeded, true⟩
        else
          ⟨[s1, ⟨setEntry s1.downloads url 0, s1.isDownloading⟩] ++
             progressTrace url ⟨setEntry s1.downloads url 0, s1.isDownloading⟩ env.progressEvents ++
             finallyStates ((progressTrace url ⟨setEntry s1.downloads url 0, s1.isDownloading⟩
                env.progressEvents).getLastD ⟨setEntry s1.downloads url 0, s1.isDownloading⟩) url,
           .succeeded, true⟩
      else
        ⟨[s1, ⟨setEntry s1.downloads url 0, s1.isDownloading⟩] ++
           progressTrace url ⟨setEntry s1.downloads url 0, s1.isDownloading⟩ env.progressEvents ++
           finallyStates ((progressTrace url ⟨setEntry s1.downloads url 0, s1.isDownloading⟩
              env.progressEvents).getLastD ⟨setEntry s1.downloads url 0, s1.isDownloading⟩) url,
         .failed, true⟩
  else
    ⟨[s1] ++ finallyStates s1 url, .failed, false⟩

/-- App.tsx `handleDownload`.  The busy guard returns before any mutation; the
permission-denied paths set the lock false explicitly and then run the
`finally` block; all other paths go through `grantedPath`. -/
def handleDownload (env : DlEnv) (url : Str) (s : DState) : DlResult :=
  if s.isDownloading then ⟨[], .busy, false⟩
  else
    match env.perm0 with
    | .granted => grantedPath env url ⟨s.downloads, true⟩
    | .deniedCanAsk =>
      if env.reAskGranted then grantedPath env url ⟨s.downloads, true⟩
      else
        ⟨[⟨s.downloads, true⟩, ⟨s.downloads, false⟩] ++ finallyStates ⟨s.downloads, false⟩ url,
         .permDenied, false⟩
    | .deniedBlocked =>
      ⟨[⟨s.downloads, true⟩, ⟨s.downloads, false⟩] ++ finallyStates ⟨s.downloads, false⟩ url,
       .permBlocked, false⟩

/-- The shared state after the invocation (last trace entry, or the initial
state when nothing was mutated). -/
def dlFinal (s : DState) (r : DlResult) : DState := r.trace.getLastD s

/-- Spec-side predicate: the tracker is empty or holds exactly the one entry
for the given url. -/
def atMostUrl (url : Str) (d : List (Str × ℚ)) : Prop :=
  d = [] ∨ ∃ p, d = [(url, p)]

/-- Spec-side predicate: as `atMostUrl`, with the stored fraction in [0,1]. -/
def boundedUrl (url : Str) (d : List (Str × ℚ)) : Prop :=
  d = [] ∨ ∃ p, d = [(url, p)] ∧ 0 ≤ p ∧ p ≤ 1

end App

-- ### Concrete inputs used by the claim theorems

def c3exS : String := "<audio src=\"a.png\"></audio>"
def c3ex : Str := c3exS.toList
def apngL : Str := "a.png".toList

def c3bS : String := "<img src=\"song.mp3\">"
def c3b : Str := c3bS.toList
def songMp3L : Str := "song.mp3".toList

def c5exS : String := "<img srcset=\"a.jpg 1x, b.jpg 2x\">"
def c5ex : Str := c5exS.toList
def ajpgL : Str := "a.jpg".toList
def bjpgL : Str := "b.jpg".toList

def c5valS : String := "a.jpg 1x, b.jpg 2x"
def c5val : Str := c5valS.toList

def c10exS : String := "<img srcset=\"song.mp3 1x\">"
def c10ex : Str := c10exS.toList
def c10valS : String := "song.mp3 1x"
def c10val : Str := c10valS.toList

def c7urlS : String := "https://x.com/song.mp3"
def c7url : Str := c7urlS.toList
def c7pathS : String := "/song.mp3"
def c7path : Str := c7pathS.toList

/-- A concrete stand-in for the platform URL parser, defined only at the
example link. -/
def c7po : Str → Option Str := fun u => if u = c7url then some c7path else none

def audioTagL : Str := "audio".toList

-- Concrete inputs for the resolver claim.
def c4join : Str → Str → Option Str := fun rel base => some (base ++ rel)
def c4baseS : String := "https://site.com/page"
def c4base : Str := c4baseS.toList
def c4protoRelS : String := "//a.com/x.png"
def c4protoRel : Str := c4protoRelS.toList

-- Concrete inputs for the orchestrator claims.
def dlUrlAS : String := "https://a.com/v.mp4"
def dlUrlA : Str := dlUrlAS.toList
def dlUrlBS : String := "https://b.com/w.mp3"
def dlUrlB : Str := dlUrlBS.toList

/-- Idle shared state: empty tracker, lock free. -/
def s0 : App.DState := ⟨[], false⟩

/-- A state in which a download of `dlUrlA` is in flight. -/
def c2s : App.DState := ⟨[(dlUrlA, 1/2)], true⟩

/-- Benign environment: permission granted, transfer succeeds after one
half-way progress event. -/
def env1 : App.DlEnv :=
  ⟨.granted, true, true, [(1, 2)], .ok, false, true, true⟩

/-- Environment whose transfer rejects mid-way after an unknown-total progress
event (expo reports `totalBytesExpectedToWrite = -1` when the server sends no
content length), leaving partial bytes on disk. -/
def env9c : App.DlEnv :=
  ⟨.granted, true, true, [(5, -1)], .throwErr, true, true, true⟩

/-- Environment whose transfer rejects leaving partial bytes at the target
path. -/
def env8c : App.DlEnv :=
  ⟨.granted, true, true, [], .throwErr, true, true, true⟩

/-- Environment whose transfer resolves with no result object and leaves
nothing on disk. -/
def env8w : App.DlEnv :=
  ⟨.granted, true, true, [], .noResult, false, true, true⟩

/-- The mid-transfer shared state reached under `env1`. -/
def st9 : App.DState := ⟨[(dlUrlA, App.progressVal 1 2)], true⟩

-- ### Lemmas about the dedup assembler (insertUnique / foldl)

lemma mem_insertUnique (l : List Str) (x a : Str) :
    a ∈ Parser.insertUnique l x ↔ a ∈ l ∨ a = x := by
  unfold Parser.insertUnique
  by_cases h : x ∈ l
  · simp only [h, if_true]
    constructor
    · exact Or.inl
    · rintro (h1 | rfl)
      · exact h1
      · exact h
  · simp [h]

lemma nodup_insertUnique (l : List Str) (x : Str) (h : l.Nodup) :
    (Parser.insertUnique l x).Nodup := by
  unfold Parser.insertUnique
  by_cases hx : x ∈ l <;> simp [hx, h, List.nodup_append, List.disjoint_singleton]

lemma insertUnique_append (l : List Str) (x : Str) :
    ∃ t, Parser.insertUnique l x = l ++ t := by
  unfold Parser.insertUnique
  by_cases hx : x ∈ l <;> simp [hx]

lemma foldl_insertUnique_nodup (parts : List Str) :
    ∀ l, l.Nodup → (parts.foldl Parser.insertUnique l).Nodup := by
  induction parts with
  | nil => intro l h; exact h
  | cons p ps ih => intro l h; exact ih _ (nodup_insertUnique _ _ h)

lemma foldl_insertUnique_append (parts : List Str) :
    ∀ l, ∃ t, parts.foldl Parser.insertUnique l = l ++ t := by
  induction parts with
  | nil => intro l; exact ⟨[], by simp⟩
  | cons p ps ih =>
    intro l
    obtain ⟨t1, h1⟩ := insertUnique_append l p
    obtain ⟨t2, h2⟩ := ih (Parser.insertUnique l p)
    exact ⟨t1 ++ t2, by rw [List.foldl_cons, h2, h1, List.append_assoc]⟩

lemma mem_foldl_insertUnique_of_mem (parts : List Str) (l : List Str) (u : Str) (h : u ∈ l) :
    u ∈ parts.foldl Parser.insertUnique l := by
  obtain ⟨t, ht⟩ := foldl_insertUnique_append parts l
  rw [ht]; exact List.mem_append_left _ h

lemma mem_foldl_insertUnique_of_mem_parts (parts : List Str) :
    ∀ l u, u ∈ parts → u ∈ parts.foldl Parser.insertUnique l := by
  induction parts with
  | nil => intro l u h; simp at h
  | cons p ps ih =>
    intro l u h
    rcases List.mem_cons.1 h with rfl | h2
    · rw [List.foldl_cons]
      exact mem_foldl_insertUnique_of_mem ps _ _ ((mem_insertUnique _ _ _).2 (Or.inr rfl))
    · rw [List.foldl_cons]; exact ih _ _ h2

-- ### Lemmas about the srcset decomposer

lemma parseSrcsetAux_nodup (parts : List Str) :
    ∀ acc : List Str, acc.Nodup → (Parser.parseSrcsetAux acc parts).Nodup := by
  induction parts with
  | nil => intro acc h; exact h
  | cons part parts ih =>
    intro acc h
    unfold Parser.parseSrcsetAux
    apply ih
    by_cases hc : (Parser.firstTokenOf part).isEmpty <;> simp [hc]
    · exact h
    · exact nodup_insertUnique _ _ h

lemma parseSrcsetAux_mem (parts : List Str) :
    ∀ acc u, u ∈ Parser.parseSrcsetAux acc parts →
      u ∈ acc ∨ (u ≠ [] ∧ ∃ part ∈ parts, u = Parser.firstTokenOf part) := by
  induction parts with
  | nil => intro acc u h; exact Or.inl h
  | cons part parts ih =>
    intro acc u h
    unfold Parser.parseSrcsetAux at h
    rcases ih _ _ h with h1 | ⟨hne, p, hp, he⟩
    · by_cases hc : (Parser.firstTokenOf part).isEmpty
      · simp only [hc, if_true] at h1
        exact Or.inl h1
      · simp only [hc, if_false] at h1
        rcases (mem_insertUnique _ _ _).1 h1 with h3 | h3
        · exact Or.inl h3
        · refine Or.inr ⟨?_, part, List.mem_cons_self _ _, h3⟩
          intro hnil
          rw [h3] at hnil
          rw [hnil] at hc
          exact hc rfl
    · exact Or.inr ⟨hne, p, List.mem_cons_of_mem _ hp, he⟩

lemma parseSrcset_nodup (v : Str) : (Parser.parseSrcset v).Nodup :=
  parseSrcsetAux_nodup _ _ List.nodup_nil

lemma parseSrcset_mem (v u : Str) (h : u ∈ Parser.parseSrcset v) :
    u ≠ [] ∧ ∃ part ∈ Parser.splitOnChar ',' v, u = Parser.firstTokenOf part := by
  rcases parseSrcsetAux_mem _ _ _ h with h1 | h2
  · simp at h1
  · exact h2

-- ### Lemmas about the per-match processing loop

lemma addByExt_nodup (st : Parser.Media) (u : Str)
    (h1 : st.images.Nodup) (h2 : st.audios.Nodup) (h3 : st.videos.Nodup) :
    (Parser.addByExt st u).images.Nodup ∧ (Parser.addByExt st u).audios.Nodup ∧
      (Parser.addByExt st u).videos.Nodup := by
  cases hE : Parser.urlExt u with
  | none => simp only [Parser.addByExt, hE]; exact ⟨h1, h2, h3⟩
  | some e =>
    cases hC : Parser.classifyExt (Parser.toLowerStr e) with
    | none => simp only [Parser.addByExt, hE, hC]; exact ⟨h1, h2, h3⟩
    | some c =>
      cases c
      · simp only [Parser.addByExt, hE, hC]
        exact ⟨nodup_insertUnique _ _ h1, h2, h3⟩
      · simp only [Parser.addByExt, hE, hC]
        exact ⟨h1, nodup_insertUnique _ _ h2, h3⟩
      · simp only [Parser.addByExt, hE, hC]
        exact ⟨h1, h2, nodup_insertUnique _ _ h3⟩

lemma addByExt_append (st : Parser.Media) (u : Str) :
    (∃ t, (Parser.addByExt st u).images = st.images ++ t) ∧
    (∃ t, (Parser.addByExt st u).audios = st.audios ++ t) ∧
    (∃ t, (Parser.addByExt st u).videos = st.videos ++ t) := by
  cases hE : Parser.urlExt u with
  | none => simp only [Parser.addByExt, hE]; exact ⟨⟨[], by simp⟩, ⟨[], by simp⟩, ⟨[], by simp⟩⟩
  | some e =>
    cases hC : Parser.classifyExt (Parser.toLowerStr e) with
    | none =>
      simp only [Parser.addByExt, hE, hC]
      exact ⟨⟨[], by simp⟩, ⟨[], by simp⟩, ⟨[], by simp⟩⟩
    | some c =>
      cases c
      · simp only [Parser.addByExt, hE, hC]
        exact ⟨insertUnique_append _ _, ⟨[], by simp⟩, ⟨[], by simp⟩⟩
      · simp only [Parser.addByExt, hE, hC]
        exact ⟨⟨[], by simp⟩, insertUnique_append _ _, ⟨[], by simp⟩⟩
      · simp only [Parser.addByExt, hE, hC]
        exact ⟨⟨[], by simp⟩, ⟨[], by simp⟩, insertUnique_append _ _⟩

lemma processStep_nodup (st : Parser.Media) (m : Parser.ScanMatch)
    (h1 : st.images.Nodup) (h2 : st.audios.Nodup) (h3 : st.videos.Nodup) :
    (Parser.processStep st m).images.Nodup ∧ (Parser.processStep st m).audios.Nodup ∧
      (Parser.processStep st m).videos.Nodup := by
  cases m with
  | srcset v =>
    simp only [Parser.processStep]
    exact ⟨foldl_insertUnique_nodup _ _ h1, h2, h3⟩
  | tagSrc t u =>
    unfold Parser.processStep
    by_cases hu : u.isEmpty <;> simp only [hu, if_true, if_false]
    · exact ⟨h1, h2, h3⟩
    · exact addByExt_nodup st u h1 h2 h3
  | anchor u =>
    unfold Parser.processStep
    by_cases hu : u.isEmpty <;> simp only [hu, if_true, if_false]
    · exact ⟨h1, h2, h3⟩
    · exact addByExt_nodup st u h1 h2 h3
  | styleBg u =>
    unfold Parser.processStep
    by_cases hu : u.isEmpty <;> simp only [hu, if_true, if_false]
    · exact ⟨h1, h2, h3⟩
    · exact addByExt_nodup st u h1 h2 h3

lemma processStep_append (st : Parser.Media) (m : Parser.ScanMatch) :
    (∃ t, (Parser.processStep st m).images = st.images ++ t) ∧
    (∃ t, (Parser.processStep st m).audios = st.audios ++ t) ∧
    (∃ t, (Parser.processStep st m).videos = st.videos ++ t) := by
  cases m with
  | srcset v =>
    simp only [Parser.processStep]
    exact ⟨foldl_insertUnique_append _ _, ⟨[], by simp⟩, ⟨[], by simp⟩⟩
  | tagSrc t u =>
    unfold Parser.processStep
    by_cases hu : u.isEmpty <;> simp only [hu, if_true, if_false]
    · exact ⟨⟨[], by simp⟩, ⟨[], by simp⟩, ⟨[], by simp⟩⟩
    · exact addByExt_append st u
  | anchor u =>
    unfold Parser.processStep
    by_cases hu : u.isEmpty <;> simp only [hu, if_true, if_false]
    · exact ⟨⟨[], by simp⟩, ⟨[], by simp⟩, ⟨[], by simp⟩⟩
    · exact addByExt_append st u
  | styleBg u =>
    unfold Parser.processStep
    by_cases hu : u.isEmpty <;> simp only [hu, if_true, if_false]
    · exact ⟨⟨[], by simp⟩, ⟨[], by simp⟩, ⟨[], by simp⟩⟩
    · exact addByExt_append st u

lemma processMatches_nodup (ms : List Parser.ScanMatch) :
    ∀ st : Parser.Media, st.images.Nodup → st.audios.Nodup → st.videos.Nodup →
      (Parser.processMatches st ms).images.Nodup ∧
      (Parser.processMatches st ms).audios.Nodup ∧
      (Parser.processMatches st ms).videos.Nodup := by
  induction ms with
  | nil => intro st h1 h2 h3; exact ⟨h1, h2, h3⟩
  | cons m ms ih =>
    intro st h1 h2 h3
    obtain ⟨g1, g2, g3⟩ := processStep_nodup st m h1 h2 h3
    exact ih (Parser.processStep st m) g1 g2 g3

lemma processMatches_append (ms : List Parser.ScanMatch) :
    ∀ st : Parser.Media,
      (∃ t, (Parser.processMatches st ms).images = st.images ++ t) ∧
      (∃ t, (Parser.processMatches st ms).audios = st.audios ++ t) ∧
      (∃ t, (Parser.processMatches st ms).videos = st.videos ++ t) := by
  induction ms with
  | nil => intro st; exact ⟨⟨[], by simp [Parser.processMatches]⟩, ⟨[], by simp [Parser.processMatches]⟩, ⟨[], by simp [Parser.processMatches]⟩⟩
  | cons m ms ih =>
    intro st
    obtain ⟨⟨a1, ha1⟩, ⟨a2, ha2⟩, ⟨a3, ha3⟩⟩ := processStep_append st m
    obtain ⟨⟨b1, hb1⟩, ⟨b2, hb2⟩, ⟨b3, hb3⟩⟩ := ih (Parser.processStep st m)
    refine ⟨⟨a1 ++ b1, ?_⟩, ⟨a2 ++ b2, ?_⟩, ⟨a3 ++ b3, ?_⟩⟩ <;>
      simp only [Parser.processMatches, List.foldl_cons] at *
    · rw [hb1, ha1, List.append_assoc]
    · rw [hb2, ha2, List.append_assoc]
    · rw [hb3, ha3, List.append_assoc]

lemma processMatches_srcset_mem (ms : List Parser.ScanMatch) :
    ∀ (st : Parser.Media) (v u : Str), Parser.ScanMatch.srcset v ∈ ms →
      u ∈ Parser.parseSrcset v → u ∈ (Parser.processMatches st ms).images := by
  induction ms with
  | nil => intro st v u h; simp at h
  | cons m ms ih =>
    intro st v u hm hu
    rcases List.mem_cons.1 hm with h1 | h2
    · have hstep : u ∈ (Parser.processStep st m).images := by
        rw [← h1]
        simpa [Parser.processStep] using
          mem_foldl_insertUnique_of_mem_parts (Parser.parseSrcset v) st.images u hu
      obtain ⟨⟨t, ht⟩, _, _⟩ := processMatches_append ms (Parser.processStep st m)
      have : Parser.processMatches st (m :: ms) = Parser.processMatches (Parser.processStep st m) ms := by
        simp [Parser.processMatches]
      rw [this, ht]
      exact List.mem_append_left _ hstep
    · have : Parser.processMatches st (m :: ms) = Parser.processMatches (Parser.processStep st m) ms := by
        simp [Parser.processMatches]
      rw [this]
      exact ih _ _ _ h2 hu

-- ### Lemmas about the progress tracker and the orchestrator state

lemma lookupQ_removeEntry (d : List (Str × ℚ)) (url : Str) :
    App.lookupQ (App.removeEntry d url) url = none := by
  induction d with
  | nil => rfl
  | cons e es ih =>
    by_cases he : e.1 = url
    · simpa [App.removeEntry, List.filter_cons, he] using ih
    · simpa [App.removeEntry, List.filter_cons, he, App.lookupQ] using ih

lemma removeEntry_nil (url : Str) : App.removeEntry [] url = [] := rfl

lemma removeEntry_atMost (url : Str) (d : List (Str × ℚ)) (h : App.atMostUrl url d) :
    App.removeEntry d url = [] := by
  rcases h with rfl | ⟨p, rfl⟩
  · rfl
  · simp [App.removeEntry, List.filter_cons]

lemma setEntry_atMost (url : Str) (d : List (Str × ℚ)) (p : ℚ) (h : App.atMostUrl url d) :
    App.atMostUrl url (App.setEntry d url p) := by
  rcases h with rfl | ⟨q, rfl⟩
  · exact Or.inr ⟨p, by simp [App.setEntry, App.lookupQ]⟩
  · exact Or.inr ⟨p, by simp [App.setEntry, App.lookupQ]⟩

lemma progressTrace_atMost (url : Str) (evs : List (Int × Int)) :
    ∀ s : App.DState, App.atMostUrl url s.downloads →
      ∀ st ∈ App.progressTrace url s evs, App.atMostUrl url st.downloads := by
  induction evs with
  | nil => intro s h st hst; simp [App.progressTrace] at hst
  | cons ev evs ih =>
    intro s h st hst
    have hnext : App.atMostUrl url (App.applyProgress s.downloads url ev) := by
      simpa [App.applyProgress] using setEntry_atMost url s.downloads _ h
    rcases List.mem_cons.1 hst with rfl | h2
    · exact hnext
    · exact ih _ hnext _ h2

lemma getLastD_mem_or_eq {α : Type} (l : List α) (d : α) :
    l.getLastD d ∈ l ∨ l.getLastD d = d := by
  induction l generalizing d with
  | nil => exact Or.inr rfl
  | cons a l ih =>
    rw [List.getLastD_cons]
    rcases ih a with h | h
    · exact Or.inl (List.mem_cons_of_mem _ h)
    · exact Or.inl (by rw [h]; exact List.mem_cons_self _ _)

lemma getLastD_append_pair {α : Type} (l : List α) (a b d : α) :
    (l ++ [a, b]).getLastD d = b := by
  have h1 : l ++ [a, b] = (l ++ [a]) ++ [b] := by simp
  rw [h1, List.getLastD_concat]

lemma finallyStates_last (l : List App.DState) (st : App.DState) (url : Str) (t : App.DState) :
    (l ++ App.finallyStates st url).getLastD t =
      (⟨App.removeEntry st.downloads url, false⟩ : App.DState) := by
  simp only [App.finallyStates]
  exact getLastD_append_pair l _ _ t

/-- The trace produced by `grantedPath` does not depend on which terminal
branch is taken: all branches mutate the shared state identically. -/
lemma grantedPath_trace (env : App.DlEnv) (url : Str) (s1 : App.DState) :
    (App.grantedPath env url s1).trace =
      if env.urlOk then
        [s1, ⟨App.setEntry s1.downloads url 0, s1.isDownloading⟩] ++
          App.progressTrace url ⟨App.setEntry s1.downloads url 0, s1.isDownloading⟩
            env.progressEvents ++
          App.finallyStates
            ((App.progressTrace url ⟨App.setEntry s1.downloads url 0, s1.isDownloading⟩
                env.progressEvents).getLastD
              ⟨App.setEntry s1.downloads url 0, s1.isDownloading⟩) url
      else [s1] ++ App.finallyStates s1 url := by
  unfold App.grantedPath
  by_cases hu : env.urlOk <;> simp only [hu, Bool.false_eq_true, if_true, if_false]
  cases env.transfer <;> by_cases ha : env.assetOk <;> by_cases hb : env.albumOk <;>
    simp [ha, hb]

lemma grantedPath_ne_busy (env : App.DlEnv) (url : Str) (s1 : App.DState) :
    (App.grantedPath env url s1).outcome ≠ App.DlOutcome.busy := by
  unfold App.grantedPath
  by_cases hu : env.urlOk <;> simp only [hu, Bool.false_eq_true, if_true, if_false]
  · cases env.transfer <;> by_cases ha : env.assetOk <;> by_cases hb : env.albumOk <;>
      simp [ha, hb]
  · simp

lemma handleDownload_ne_busy (env : App.DlEnv) (url : Str) (st : App.DState)
    (h : st.isDownloading = false) :
    (App.handleDownload env url st).outcome ≠ App.DlOutcome.busy := by
  unfold App.handleDownload
  simp only [h, Bool.false_eq_true, if_false]
  cases env.perm0
  · exact grantedPath_ne_busy env url _
  · by_cases hr : env.reAskGranted <;> simp only [hr, Bool.false_eq_true, if_true, if_false]
    · exact grantedPath_ne_busy env url _
    · simp
  · simp

lemma grantedPath_final (env : App.DlEnv) (url : Str) (s1 : App.DState) (t : App.DState) :
    App.lookupQ (((App.grantedPath env url s1).trace).getLastD t).downloads url = none ∧
      (((App.grantedPath env url s1).trace).getLastD t).isDownloading = false := by
  rw [grantedPath_trace]
  by_cases hu : env.urlOk <;> simp only [hu, Bool.false_eq_true, if_true, if_false]
  · rw [finallyStates_last]
    exact ⟨lookupQ_removeEntry _ _, rfl⟩
  · rw [finallyStates_last]
    exact ⟨lookupQ_removeEntry _ _, rfl⟩

lemma grantedPath_trace_atMost (env : App.DlEnv) (url : Str) (s1 : App.DState)
    (h : s1.downloads = []) :
    ∀ st ∈ (App.grantedPath env url s1).trace, App.atMostUrl url st.downloads := by
  rw [grantedPath_trace]
  by_cases hu : env.urlOk <;> simp only [hu, Bool.false_eq_true, if_true, if_false]
  · intro st hst
    have hs2 : App.atMostUrl url (App.setEntry s1.downloads url 0) :=
      setEntry_atMost url s1.downloads 0 (Or.inl h)
    have hSE : App.atMostUrl url
        ((App.progressTrace url ⟨App.setEntry s1.downloads url 0, s1.isDownloading⟩
            env.progressEvents).getLastD
          ⟨App.setEntry s1.downloads url 0, s1.isDownloading⟩).downloads := by
      rcases getLastD_mem_or_eq
          (App.progressTrace url ⟨App.setEntry s1.downloads url 0, s1.isDownloading⟩
            env.progressEvents)
          (⟨App.setEntry s1.downloads url 0, s1.isDownloading⟩ : App.DState) with hm | he
      · exact progressTrace_atMost url env.progressEvents _ hs2 _ hm
      · rw [he]; exact hs2
    rcases List.mem_append.1 hst with hst1 | hstFin
    · rcases List.mem_append.1 hst1 with hst2 | hst3
      · rcases List.mem_cons.1 hst2 with rfl | hst4
        · exact Or.inl h
        · rcases List.mem_cons.1 hst4 with rfl | hfalse
          · exact hs2
          · simp at hfalse
      · exact progressTrace_atMost url env.progressEvents _ hs2 _ hst3
    · simp only [App.finallyStates, List.mem_cons, List.not_mem_nil, or_false] at hstFin
      rcases hstFin with rfl | rfl
      · exact Or.inl (removeEntry_atMost url _ hSE)
      · exact Or.inl (removeEntry_atMost url _ hSE)
  · intro st hst
    rw [List.singleton_append] at hst
    rcases List.mem_cons.1 hst with rfl | hst2
    · exact Or.inl h
    · simp only [App.finallyStates, List.mem_cons, List.not_mem_nil, or_false] at hst2
      rcases hst2 with rfl | rfl
      · exact Or.inl (by rw [show s1.downloads = [] from h]; rfl)
      · exact Or.inl (by rw [show s1.downloads = [] from h]; rfl)

lemma progressVal_unit (w e : Int) (h1 : 0 ≤ w) (h2 : w ≤ e) (h3 : 0 < e) :
    0 ≤ App.progressVal w e ∧ App.progressVal w e ≤ 1 := by
  unfold App.progressVal
  constructor
  · exact div_nonneg (by exact_mod_cast h1) (by exact_mod_cast h3.le)
  · rw [div_le_one (by exact_mod_cast h3)]
    exact_mod_cast h2

lemma setEntry_bounded (url : Str) (d : List (Str × ℚ)) (p : ℚ)
    (h : App.boundedUrl url d) (h0 : 0 ≤ p) (h1 : p ≤ 1) :
    App.boundedUrl url (App.setEntry d url p) := by
  rcases h with rfl | ⟨q, rfl, hq0, hq1⟩
  · exact Or.inr ⟨p, by simp [App.setEntry, App.lookupQ], h0, h1⟩
  · exact Or.inr ⟨p, by simp [App.setEntry, App.lookupQ], h0, h1⟩

lemma progressTrace_bounded (url : Str) (evs : List (Int × Int)) :
    ∀ s : App.DState, (∀ ev ∈ evs, 0 ≤ ev.1 ∧ ev.1 ≤ ev.2 ∧ 0 < ev.2) →
      App.boundedUrl url s.downloads →
      ∀ st ∈ App.progressTrace url s evs, App.boundedUrl url st.downloads := by
  induction evs with
  | nil => intro s _ _ st hst; simp [App.progressTrace] at hst
  | cons ev evs ih =>
    intro s hev h st hst
    obtain ⟨h1, h2, h3⟩ := hev ev (List.mem_cons_self _ _)
    have hp := progressVal_unit ev.1 ev.2 h1 h2 h3
    have hnext : App.boundedUrl url (App.applyProgress s.downloads url ev) := by
      simpa [App.applyProgress] using setEntry_bounded url s.downloads _ h hp.1 hp.2
    rcases List.mem_cons.1 hst with rfl | h4
    · exact hnext
    · exact ih _ (fun e2 he => hev e2 (List.mem_cons_of_mem _ he)) hnext _ h4

lemma boundedUrl_atMost (url : Str) (d : List (Str × ℚ)) (h : App.boundedUrl url d) :
    App.atMostUrl url d := by
  rcases h with rfl | ⟨p, rfl, _, _⟩
  · exact Or.inl rfl
  · exact Or.inr ⟨p, rfl⟩

lemma lookupQ_bounded (url : Str) (d : List (Str × ℚ)) (q : ℚ)
    (h : App.boundedUrl url d) (hl : App.lookupQ d url = some q) : 0 ≤ q ∧ q ≤ 1 := by
  rcases h with rfl | ⟨p, rfl, hp0, hp1⟩
  · simp [App.lookupQ] at hl
  · simp [App.lookupQ] at hl
    rw [← hl]
    exact ⟨hp0, hp1⟩

lemma grantedPath_trace_bounded (env : App.DlEnv) (url : Str) (s1 : App.DState)
    (h : s1.downloads = [])
    (hev : ∀ ev ∈ env.progressEvents, 0 ≤ ev.1 ∧ ev.1 ≤ ev.2 ∧ 0 < ev.2) :
    ∀ st ∈ (App.grantedPath env url s1).trace, App.boundedUrl url st.downloads := by
  rw [grantedPath_trace]
  by_cases hu : env.urlOk <;> simp only [hu, Bool.false_eq_true, if_true, if_false]
  · intro st hst
    have hs2 : App.boundedUrl url (App.setEntry s1.downloads url 0) :=
      setEntry_bounded url s1.downloads 0 (Or.inl h) le_rfl zero_le_one
    have hSE : App.boundedUrl url
        ((App.progressTrace url ⟨App.setEntry s1.downloads url 0, s1.isDownloading⟩
            env.progressEvents).getLastD
          ⟨App.setEntry s1.downloads url 0, s1.isDownloading⟩).downloads := by
      rcases getLastD_mem_or_eq
          (App.progressTrace url ⟨App.setEntry s1.downloads url 0, s1.isDownloading⟩
            env.progressEvents)
          (⟨App.setEntry s1.downloads url 0, s1.isDownloading⟩ : App.DState) with hm | he
      · exact progressTrace_bounded url env.progressEvents _ hev hs2 _ hm
      · rw [he]; exact hs2
    rcases List.mem_append.1 hst with hst1 | hstFin
    · rcases List.mem_append.1 hst1 with hst2 | hst3
      · rcases List.mem_cons.1 hst2 with rfl | hst4
        · exact Or.inl h
        · rcases List.mem_cons.1 hst4 with rfl | hfalse
          · exact hs2
          · simp at hfalse
      · exact progressTrace_bounded url env.progressEvents _ hev hs2 _ hst3
    · simp only [App.finallyStates, List.mem_cons, List.not_mem_nil, or_false] at hstFin
      rcases hstFin with rfl | rfl
      · exact Or.inl (removeEntry_atMost url _ (boundedUrl_atMost url _ hSE))
      · exact Or.inl (removeEntry_atMost url _ (boundedUrl_atMost url _ hSE))
  · intro st hst
    rw [List.singleton_append] at hst
    rcases List.mem_cons.1 hst with rfl | hst2
    · exact Or.inl h
    · simp only [App.finallyStates, List.mem_cons, List.not_mem_nil, or_false] at hst2
      rcases hst2 with rfl | rfl
      · exact Or.inl (by rw [show s1.downloads = [] from h]; rfl)
      · exact Or.inl (by rw [show s1.downloads = [] from h]; rfl)

lemma handleDownload_final (env : App.DlEnv) (url : Str) (s : App.DState)
    (h : s.isDownloading = false) :
    App.lookupQ (App.dlFinal s (App.handleDownload env url s)).downloads url = none ∧
      (App.dlFinal s (App.handleDownload env url s)).isDownloading = false := by
  unfold App.handleDownload App.dlFinal
  simp only [h, Bool.false_eq_true, if_false]
  cases env.perm0
  · exact grantedPath_final env url _ s
  · by_cases hr : env.reAskGranted <;> simp only [hr, Bool.false_eq_true, if_true, if_false]
    · exact grantedPath_final env url _ s
    · rw [finallyStates_last]
      exact ⟨lookupQ_removeEntry _ _, rfl⟩
  · rw [finallyStates_last]
    exact ⟨lookupQ_removeEntry _ _, rfl⟩

lemma handleDownload_trace_atMost (env : App.DlEnv) (url : Str) (s : App.DState)
    (h : s.isDownloading = false) (h2 : s.downloads = []) :
    ∀ st ∈ (App.handleDownload env url s).trace, App.atMostUrl url st.downloads := by
  unfold App.handleDownload
  simp only [h, Bool.false_eq_true, if_false]
  cases env.perm0
  · exact grantedPath_trace_atMost env url _ h2
  · by_cases hr : env.reAskGranted <;> simp only [hr, Bool.false_eq_true, if_true, if_false]
    · exact grantedPath_trace_atMost env url _ h2
    · intro st hst
      rcases List.mem_append.1 hst with h3 | h3
      · rcases List.mem_cons.1 h3 with rfl | h4
        · exact Or.inl h2
        · rcases List.mem_cons.1 h4 with rfl | hf
          · exact Or.inl h2
          · simp at hf
      · simp only [App.finallyStates, List.mem_cons, List.not_mem_nil, or_false] at h3
        rcases h3 with rfl | rfl <;>
          exact Or.inl (by rw [show s.downloads = [] from h2]; rfl)
  · intro st hst
    rcases List.mem_append.1 hst with h3 | h3
    · rcases List.mem_cons.1 h3 with rfl | h4
      · exact Or.inl h2
      · rcases List.mem_cons.1 h4 with rfl | hf
        · exact Or.inl h2
        · simp at hf
    · simp only [App.finallyStates, List.mem_cons, List.not_mem_nil, or_false] at h3
      rcases h3 with rfl | rfl <;>
        exact Or.inl (by rw [show s.downloads = [] from h2]; rfl)

lemma handleDownload_trace_bounded (env : App.DlEnv) (url : Str) (s : App.DState)
    (h : s.isDownloading = false) (h2 : s.downloads = [])
    (hev : ∀ ev ∈ env.progressEvents, 0 ≤ ev.1 ∧ ev.1 ≤ ev.2 ∧ 0 < ev.2) :
    ∀ st ∈ (App.handleDownload env url s).trace, App.boundedUrl url st.downloads := by
  unfold App.handleDownload
  simp only [h, Bool.false_eq_true, if_false]
  cases env.perm0
  · exact grantedPath_trace_bounded env url _ h2 hev
  · by_cases hr : env.reAskGranted <;> simp only [hr, Bool.false_eq_true, if_true, if_false]
    · exact grantedPath_trace_bounded env url _ h2 hev
    · intro st hst
      rcases List.mem_append.1 hst with h3 | h3
      · rcases List.mem_cons.1 h3 with rfl | h4
        · exact Or.inl h2
        · rcases List.mem_cons.1 h4 with rfl | hf
          · exact Or.inl h2
          · simp at hf
      · simp only [App.finallyStates, List.mem_cons, List.not_mem_nil, or_false] at h3
        rcases h3 with rfl | rfl <;>
          exact Or.inl (by rw [show s.downloads = [] from h2]; rfl)
  · intro st hst
    rcases List.mem_append.1 hst with h3 | h3
    · rcases List.mem_cons.1 h3 with rfl | h4
      · exact Or.inl h2
      · rcases List.mem_cons.1 h4 with rfl | hf
        · exact Or.inl h2
        · simp at hf
    · simp only [App.finallyStates, List.mem_cons, List.not_mem_nil, or_false] at h3
      rcases h3 with rfl | rfl <;>
        exact Or.inl (by rw [show s.downloads = [] from h2]; rfl)

-- ### Claim theorems

/-- C3 (counterexample): the scanner does not give the tag name any
classification weight — the source regex does not even capture it.  On
`<audio src="a.png"></audio>` the scan yields exactly one reference whose tag
alternative is `audio`, yet the URL is filed under images (by its `.png`
extension) and not under audios, contradicting the claim that the audio tag
hint wins over the extension. -/
theorem claim_c3_counterexample :
    Parser.scanMatches c3ex = [Parser.ScanMatch.tagSrc audioTagL apngL] ∧
    apngL ∈ (Parser.extractMedia c3ex).images ∧
    apngL ∉ (Parser.extractMedia c3ex).audios := by decide

/-- C3 (amended): every reference found via src/data-src/poster/data-lazy-src
inside an img/video/audio/source tag is classified solely by its lowercased
extension; the tag name is discarded by the scan and never overrides the
extension.  The processing loop is literally invariant under the tag name, and
concretely `<audio src="a.png">` is filed under images while
`<img src="song.mp3">` is filed under audios. -/
theorem claim_c3 :
    (∀ (st : Parser.Media) (t1 t2 u : Str),
      Parser.processStep st (Parser.ScanMatch.tagSrc t1 u) =
        Parser.processStep st (Parser.ScanMatch.tagSrc t2 u)) ∧
    Parser.extractMedia c3ex = ⟨[apngL], [], []⟩ ∧
    Parser.extractMedia c3b = ⟨[], [songMp3L], []⟩ :=
  ⟨fun _ _ _ _ => rfl, by decide, by decide⟩

/-- C5: the srcset decomposer splits on commas, keeps for each candidate only
its leading whitespace-delimited token (dropping any width/density
descriptor), ignores empty candidates, and returns a duplicate-free list in
first-appearance order; `<img srcset="a.jpg 1x, b.jpg 2x">` yields exactly
a.jpg before b.jpg. -/
theorem claim_c5 :
    (∀ v : Str, (Parser.parseSrcset v).Nodup) ∧
    (∀ v u : Str, u ∈ Parser.parseSrcset v →
      u ≠ [] ∧ ∃ part ∈ Parser.splitOnChar ',' v, u = Parser.firstTokenOf part) ∧
    Parser.extractMedia c5ex = ⟨[ajpgL, bjpgL], [], []⟩ :=
  ⟨fun v => parseSrcset_nodup v, fun v u h => parseSrcset_mem v u h, by decide⟩

/-- C5 (witness): a.jpg is produced from the example srcset value, is
nonempty, and is the leading token of one of its comma candidates. -/
theorem claim_c5_witness :
    ajpgL ∈ Parser.parseSrcset c5val ∧
    (ajpgL ≠ [] ∧ ∃ part ∈ Parser.splitOnChar ',' c5val,
      ajpgL = Parser.firstTokenOf part) :=
  ⟨by decide, claim_c5.2.1 c5val ajpgL (by decide)⟩

/-- C6: for every input markup text each of the three collections returned by
extractMedia is duplicate-free, and processing further matches only ever
appends to the collections, so a URL keeps the position of its first
discovery. -/
theorem claim_c6 :
    (∀ html : Str, (Parser.extractMedia html).images.Nodup ∧
      (Parser.extractMedia html).audios.Nodup ∧
      (Parser.extractMedia html).videos.Nodup) ∧
    (∀ (st : Parser.Media) (ms : List Parser.ScanMatch),
      (∃ t, (Parser.processMatches st ms).images = st.images ++ t) ∧
      (∃ t, (Parser.processMatches st ms).audios = st.audios ++ t) ∧
      (∃ t, (Parser.processMatches st ms).videos = st.videos ++ t)) :=
  ⟨fun html =>
    processMatches_nodup (Parser.scanMatches html) ⟨[], [], []⟩
      List.nodup_nil List.nodup_nil List.nodup_nil,
   fun st ms => processMatches_append ms st⟩

/-- C10: every URL decomposed from a srcset/data-srcset match is placed into
the images collection directly, with no extension classification, so a srcset
candidate with an audio, video, or unrecognized extension still appears among
the images. -/
theorem claim_c10 (html v u : Str)
    (hm : Parser.ScanMatch.srcset v ∈ Parser.scanMatches html)
    (hu : u ∈ Parser.parseSrcset v) :
    u ∈ (Parser.extractMedia html).images :=
  processMatches_srcset_mem (Parser.scanMatches html) ⟨[], [], []⟩ v u hm hu

/-- C10 (witness): `<img srcset="song.mp3 1x">` — song.mp3 has an audio
extension, yet it lands in images. -/
theorem claim_c10_witness :
    Parser.ScanMatch.srcset c10val ∈ Parser.scanMatches c10ex ∧
    songMp3L ∈ Parser.parseSrcset c10val ∧
    songMp3L ∈ (Parser.extractMedia c10ex).images :=
  ⟨by decide, by decide, claim_c10 c10ex c10val songMp3L (by decide) (by decide)⟩

/-- C1: for every handleDownload invocation that passes the busy check, on
every terminal path the tracker ends with no entry for the submitted URL and
the single-flight lock is released; starting from an empty tracker, every
intermediate state holds at most the one entry for that URL; and a subsequent
start from the final state is never rejected as busy. -/
theorem claim_c1 (env : App.DlEnv) (url : Str) (s : App.DState)
    (h : s.isDownloading = false) :
    App.lookupQ (App.dlFinal s (App.handleDownload env url s)).downloads url = none ∧
    (App.dlFinal s (App.handleDownload env url s)).isDownloading = false ∧
    (s.downloads = [] →
      ∀ st ∈ (App.handleDownload env url s).trace, App.atMostUrl url st.downloads) ∧
    (∀ (env2 : App.DlEnv) (url2 : Str),
      (App.handleDownload env2 url2 (App.dlFinal s (App.handleDownload env url s))).outcome ≠
        App.DlOutcome.busy) := by
  refine ⟨(handleDownload_final env url s h).1, (handleDownload_final env url s h).2,
    fun h2 => handleDownload_trace_atMost env url s h h2, fun env2 url2 => ?_⟩
  exact handleDownload_ne_busy env2 url2 _ (handleDownload_final env url s h).2

/-- C1 (witness): a successful run of a concrete job from the idle state ends
with an empty tracker entry for its URL and a released lock. -/
theorem claim_c1_witness :
    s0.isDownloading = false ∧
    App.lookupQ (App.dlFinal s0 (App.handleDownload env1 dlUrlA s0)).downloads dlUrlA = none ∧
    (App.dlFinal s0 (App.handleDownload env1 dlUrlA s0)).isDownloading = false :=
  ⟨by decide, (claim_c1 env1 dlUrlA s0 (by decide)).1, (claim_c1 env1 dlUrlA s0 (by decide)).2.1⟩

/-- C2: a start request while the lock is held returns busy immediately,
mutates nothing (no queueing), and leaves the in-flight job's tracker entry
and state untouched. -/
theorem claim_c2 (env : App.DlEnv) (url : Str) (s : App.DState)
    (h : s.isDownloading = true) :
    App.handleDownload env url s = ⟨[], App.DlOutcome.busy, false⟩ ∧
    App.dlFinal s (App.handleDownload env url s) = s := by
  unfold App.handleDownload App.dlFinal
  simp [h]

/-- C2 (witness): starting a second URL while dlUrlA is mid-download is
rejected as busy and the first job's half-way progress entry is unchanged. -/
theorem claim_c2_witness :
    c2s.isDownloading = true ∧
    (App.handleDownload env1 dlUrlB c2s = ⟨[], App.DlOutcome.busy, false⟩ ∧
      App.dlFinal c2s (App.handleDownload env1 dlUrlB c2s) = c2s) :=
  ⟨by decide, claim_c2 env1 dlUrlB c2s (by decide)⟩

/-- C4: resolveUrl follows the stated order — empty value dropped, http(s)
values unchanged, protocol-relative values prefixed with `https:`, anything
else joined against the base URL by the (platform) URL constructor, whose
failure yields the empty marker — and the pipeline filters the marker out of
the output without ever aborting. -/
theorem claim_c4 (join : Str → Str → Option Str) (baseUrl relativeUrl : Str) :
    (relativeUrl = [] → App.resolveUrl join baseUrl relativeUrl = []) ∧
    (App.startsWithL App.httpL relativeUrl = true ∨
        App.startsWithL App.httpsL relativeUrl = true →
      App.resolveUrl join baseUrl relativeUrl = relativeUrl) ∧
    (App.startsWithL App.httpL relativeUrl = false →
      App.startsWithL App.httpsL relativeUrl = false →
      App.startsWithL App.protoRelL relativeUrl = true →
      App.resolveUrl join baseUrl relativeUrl = App.httpsColonL ++ relativeUrl) ∧
    (relativeUrl ≠ [] →
      App.startsWithL App.httpL relativeUrl = false →
      App.startsWithL App.httpsL relativeUrl = false →
      App.startsWithL App.protoRelL relativeUrl = false →
      App.resolveUrl join baseUrl relativeUrl = (join relativeUrl baseUrl).getD []) ∧
    (∀ urls : List Str, [] ∉ App.resolveAll join baseUrl urls) := by
  refine ⟨?_, ?_, ?_, ?_, ?_⟩
  · intro h
    subst h
    rfl
  · intro h
    have hne : relativeUrl.isEmpty = false := by
      cases relativeUrl with
      | nil => rcases h with h | h <;> exact absurd h (by decide)
      | cons c cs => rfl
    rcases h with h | h <;> simp [App.resolveUrl, hne, h]
  · intro h1 h2 h3
    have hne : relativeUrl.isEmpty = false := by
      cases relativeUrl with
      | nil => exact absurd h3 (by decide)
      | cons c cs => rfl
    simp [App.resolveUrl, hne, h1, h2, h3]
  · intro h0 h1 h2 h3
    have hne : relativeUrl.isEmpty = false := by
      cases relativeUrl with
      | nil => exact absurd rfl h0
      | cons c cs => rfl
    simp only [App.resolveUrl, hne, Bool.false_eq_true, if_false, h1, h2, h3,
      Bool.or_self, if_false]
    cases join relativeUrl baseUrl <;> rfl
  · intro urls
    simp [App.resolveAll, List.mem_filter]

/-- C4 (witness): the protocol-relative reference //a.com/x.png resolves to
https://a.com/x.png under a concrete join oracle. -/
theorem claim_c4_witness :
    App.resolveUrl c4join c4base c4protoRel = App.httpsColonL ++ c4protoRel :=
  (claim_c4 c4join c4base c4protoRel).2.2.1 (by decide) (by decide) (by decide)

/-- C7: when the platform URL parser yields a pathname for the (non-blank)
input link and that pathname, lowercased, ends in a recognized media
extension, handlePluck takes the direct fast path — no fetch, no scan — and
the input is placed alone in the matching category with the other collections
empty.  The three conjuncts follow the image-then-audio-then-video precedence
of getDirectMediaCategory. -/
theorem claim_c7 (pathnameOf : Str → Option Str) (url p : Str)
    (hp : pathnameOf url = some p) (hne : (Parser.jsTrim url).isEmpty = false) :
    (App.IMAGE_EXTENSIONS.any (fun e => App.endsWithL e (Parser.toLowerStr p)) = true →
      App.handlePluck pathnameOf url = App.PluckResult.direct ⟨[url], [], [], []⟩) ∧
    (App.IMAGE_EXTENSIONS.any (fun e => App.endsWithL e (Parser.toLowerStr p)) = false →
      App.AUDIO_EXTENSIONS.any (fun e => App.endsWithL e (Parser.toLowerStr p)) = true →
      App.handlePluck pathnameOf url = App.PluckResult.direct ⟨[], [url], [], []⟩) ∧
    (App.IMAGE_EXTENSIONS.any (fun e => App.endsWithL e (Parser.toLowerStr p)) = false →
      App.AUDIO_EXTENSIONS.any (fun e => App.endsWithL e (Parser.toLowerStr p)) = false →
      App.VIDEO_EXTENSIONS.any (fun e => App.endsWithL e (Parser.toLowerStr p)) = true →
      App.handlePluck pathnameOf url = App.PluckResult.direct ⟨[], [], [url], []⟩) := by
  refine ⟨?_, ?_, ?_⟩
  · intro h1
    simp [App.handlePluck, App.getDirectMediaCategory, hp, hne, h1]
  · intro h1 h2
    simp [App.handlePluck, App.getDirectMediaCategory, hp, hne, h1, h2]
  · intro h1 h2 h3
    simp [App.handlePluck, App.getDirectMediaCategory, hp, hne, h1, h2, h3]

/-- C7 (witness): the input https://x.com/song.mp3 is routed to the direct
fast path with audios = [that URL] and images/videos/others empty. -/
theorem claim_c7_witness :
    c7po c7url = some c7path ∧
    App.handlePluck c7po c7url = App.PluckResult.direct ⟨[], [c7url], [], []⟩ :=
  ⟨by decide,
   (claim_c7 c7po c7url c7path (by decide) (by decide)).2.1 (by decide) (by decide)⟩

/-- C8 (counterexample): a job whose transfer rejects after writing partial
bytes (the environment records that the platform leaves a partial file) is
marked failed, but the file is retained — the catch/finally blocks contain no
file deletion — contradicting "no partial local file is retained". -/
theorem claim_c8_counterexample :
    (App.handleDownload env8c dlUrlB s0).outcome = App.DlOutcome.failed ∧
    (App.handleDownload env8c dlUrlB s0).fileRetained = true := by decide

/-- C8 (amended): on transfer failure (no result object, or rejection) the job
is marked failed, and whether a partial file remains at the target path is
exactly whatever the transfer primitive left behind — the orchestrator
performs no cleanup of it. -/
theorem claim_c8 (env : App.DlEnv) (url : Str) (s : App.DState)
    (h : s.isDownloading = false) (hp : env.perm0 = App.Perm0.granted)
    (hu : env.urlOk = true)
    (ht : env.transfer = App.TransferRes.noResult ∨
      env.transfer = App.TransferRes.throwErr) :
    (App.handleDownload env url s).outcome = App.DlOutcome.failed ∧
    (App.handleDownload env url s).fileRetained = env.leavesPartial := by
  unfold App.handleDownload App.grantedPath
  rcases ht with ht | ht <;> simp [h, hp, hu, ht]

/-- C8 (witness): a transfer that resolves with no result object fails the job;
nothing was left on disk and nothing is retained. -/
theorem claim_c8_witness :
    (App.handleDownload env8w dlUrlA s0).outcome = App.DlOutcome.failed ∧
    (App.handleDownload env8w dlUrlA s0).fileRetained = env8w.leavesPartial :=
  claim_c8 env8w dlUrlA s0 (by decide) (by decide) (by decide) (Or.inl (by decide))

/-- C9 (counterexample): the progress callback divides unconditionally.  With
the platform's unknown-total sentinel (totalBytesExpectedToWrite = -1) a
progress event (5, -1) stores the fraction -5 in the tracker during the
Downloading phase: a definite number outside [0,1], not an indeterminate
report, contradicting the claim. -/
theorem claim_c9_counterexample :
    (⟨[(dlUrlB, App.progressVal 5 (-1))], true⟩ : App.DState) ∈
      (App.handleDownload env9c dlUrlB s0).trace ∧
    App.lookupQ [(dlUrlB, App.progressVal 5 (-1))] dlUrlB =
      some (App.progressVal 5 (-1)) ∧
    App.progressVal 5 (-1) < 0 := by
  refine ⟨?_, rfl, ?_⟩
  · have htr : (App.handleDownload env9c dlUrlB s0).trace =
        [⟨[], true⟩, ⟨[(dlUrlB, 0)], true⟩,
         ⟨[(dlUrlB, App.progressVal 5 (-1))], true⟩, ⟨[], true⟩, ⟨[], false⟩] := rfl
    rw [htr]
    exact List.mem_cons_of_mem _ (List.mem_cons_of_mem _ (List.mem_cons_self _ _))
  · norm_num [App.progressVal]

/-- C9 (amended): the stored fraction is always bytesWritten/bytesExpected;
whenever every progress event satisfies 0 ≤ written ≤ expected with expected
positive (the known-total case), every tracker value observed during the run
lies in [0,1].  No clamping or indeterminate handling exists for other
events. -/
theorem claim_c9 (env : App.DlEnv) (url : Str) (s : App.DState)
    (h : s.isDownloading = false) (h2 : s.downloads = [])
    (hev : ∀ ev ∈ env.progressEvents, 0 ≤ ev.1 ∧ ev.1 ≤ ev.2 ∧ 0 < ev.2) :
    ∀ st ∈ (App.handleDownload env url s).trace, ∀ q,
      App.lookupQ st.downloads url = some q → 0 ≤ q ∧ q ≤ 1 := by
  intro st hst q hq
  exact lookupQ_bounded url st.downloads q
    (handleDownload_trace_bounded env url s h h2 hev st hst) hq

/-- C9 (witness): under a (1, 2) progress event the mid-transfer state stores
the fraction 1/2, which lies in [0,1]. -/
theorem claim_c9_witness :
    App.lookupQ st9.downloads dlUrlA = some (App.progressVal 1 2) ∧
    (0 ≤ App.progressVal 1 2 ∧ App.progressVal 1 2 ≤ 1) := by
  refine ⟨rfl, ?_⟩
  have hmem : st9 ∈ (App.handleDownload env1 dlUrlA s0).trace := by
    have htr : (App.handleDownload env1 dlUrlA s0).trace =
        [⟨[], true⟩, ⟨[(dlUrlA, 0)], true⟩, st9, ⟨[], true⟩, ⟨[], false⟩] := rfl
    rw [htr]
    exact List.mem_cons_of_mem _ (List.mem_cons_of_mem _ (List.mem_cons_self _ _))
  exact claim_c9 env1 dlUrlA s0 (by decide) (by decide) (by decide) st9 hmem
    (App.progressVal 1 2) rfl
